import Mathlib

/-!
Verification development for the algorithm-runner backend
(`src/backend/handler.ts`).

The development shallowly embeds the handler's data model and operations:

* JSON-like values are the mutually inductive `Json` / `JsonList` / `JsonObj`
  (numbers are modelled as integers: no claim under scrutiny depends on
  non-integral numerics, and the handler's own numeric option is an integer).
* `stableStringify`, `createCacheKey`, `parseInput`, `parseOptions`,
  `resolveIterations`, `singleRun` (with its contraction loop),
  `computeCutSize`, `execute`, `augmentResultWithOptions`, `normalisePath`
  and the route/error mapping of the Lambda handler are translated
  function-by-function from the source.
* JavaScript `Map` objects are association lists whose `set` replaces an
  existing key in place (as `Map.set` does) and appends a fresh key;
  `Set` objects are duplicate-free lists in insertion order.
* `Math.random()`-driven index choices are abstracted as an injected stream
  `rand : Nat → Nat`, reduced modulo the current edge-list length, so every
  reachable random trace of the source corresponds to some stream.
* The string comparator used to sort object keys in the source is
  `String.prototype.localeCompare`, i.e. locale-aware (ICU) collation, not
  code-point order, and not a total order on strings: completely-ignorable
  characters (most C0 controls, the soft hyphen, ...) carry no collation
  weight, so distinct keys can compare equal, and the required-stable
  `Array.prototype.sort` then keeps such keys in insertion order.
  `localeLe` models this: ignorable characters are dropped, an upper-case
  letter folds onto its lower-case code point at the primary level with a
  lower-case-first tie-break, and every other character keeps its code
  point.  The model's equivalence (which keys compare equal) is faithful on
  printable-ASCII keys, and its order is faithful on ASCII letter/digit
  keys; the real collator orders some other characters differently (for
  example punctuation before digits), which no theorem below depends on.
  `sortEntries` is insertion sort with the non-strict comparator, which is
  stable, and a stable comparator sort has a unique result — so it computes
  exactly what the source's `Array.prototype.sort` computes for any
  consistent comparator.
-/

/-! ## JSON-like values -/

mutual
/-- JSON-like value (`null`, boolean, number, string, sequence, mapping);
numbers are modelled as integers. -/
inductive Json where
  | null : Json
  | bool (b : Bool) : Json
  | num (n : Int) : Json
  | str (s : String) : Json
  | arr (xs : JsonList) : Json
  | obj (fs : JsonObj) : Json
  deriving DecidableEq

/-- Element list of a JSON sequence. -/
inductive JsonList where
  | nil : JsonList
  | cons (x : Json) (xs : JsonList) : JsonList
  deriving DecidableEq

/-- Field list of a JSON mapping, in insertion order. -/
inductive JsonObj where
  | nil : JsonObj
  | cons (k : String) (v : Json) (fs : JsonObj) : JsonObj
  deriving DecidableEq
end

/-- Convert a `JsonList` to an ordinary list. -/
def JsonList.toList : JsonList → List Json
  | .nil => []
  | .cons x xs => x :: xs.toList

/-- Convert a `JsonObj` to an ordinary list of key/value pairs. -/
def JsonObj.toList : JsonObj → List (String × Json)
  | .nil => []
  | .cons k v fs => (k, v) :: fs.toList

/-- Build a `JsonObj` from a list of key/value pairs. -/
def JsonObj.ofList : List (String × Json) → JsonObj
  | [] => .nil
  | (k, v) :: fs => .cons k v (JsonObj.ofList fs)

/-- Property lookup on a field list (first occurrence wins; a JavaScript
object holds each key at most once).  `none` models `undefined`. -/
def JsonObj.get : JsonObj → String → Option Json
  | .nil, _ => none
  | .cons k v fs, key => if k = key then some v else fs.get key

/-- Property access `value.key`: `none` (undefined) unless the value is a
mapping that carries the key. -/
def Json.get : Json → String → Option Json
  | .obj fs, key => fs.get key
  | _, _ => none

/-- Association-list lookup used for diagnostics maps. -/
def lookupField (key : String) : List (String × Json) → Option Json
  | [] => none
  | (k, v) :: fs => if k = key then some v else lookupField key fs

/-! ## The key comparator of `stableStringify`

The source sorts mapping entries with `keyA.localeCompare(keyB)`.
`localeLe` is the model of that comparator described in the header. -/

/-- Completely ignorable characters of the default collation: the C0
controls that are not blank characters (tab, LF, VT, FF and CR are
whitespace and do carry weights), DEL, and the soft hyphen.  They
contribute no collation weight at any level, so `"a"` and `"a\x01"`
compare equal.  (This is the ignorable set within the modelled character
range; ignorable format characters outside it are not modelled.) -/
def collIgnorable (c : Char) : Bool :=
  (decide (c.toNat ≤ 8)) || (decide (14 ≤ c.toNat) && decide (c.toNat ≤ 31)) ||
    decide (c.toNat = 127) || decide (c.toNat = 173)

/-- Primary collation weight of a character: an ASCII upper-case letter is
folded onto its lower-case counterpart (`code + 32`); every other character
keeps its code point.  (Faithful for ASCII letters and digits; the real
collator orders some other characters differently, e.g. punctuation before
digits — no theorem below depends on the order outside letters and
digits.) -/
def collWeight (c : Char) : Nat := if c.isUpper then c.toNat + 32 else c.toNat

/-- Case tie-break weight: lower case (and caseless) before upper case. -/
def caseWeight (c : Char) : Nat := if c.isUpper then 1 else 0

/-- Collation key of a string: the ignorable characters are dropped, then
primary weights come first and case weights second. -/
def collKey (s : String) : Lex (List Nat × List Nat) :=
  toLex ((s.data.filter (fun c => !(collIgnorable c))).map collWeight,
    (s.data.filter (fun c => !(collIgnorable c))).map caseWeight)

/-- Model of `a.localeCompare(b) <= 0` for the default locale:
lexicographic comparison of the collation keys.  This is a total preorder,
not a total order: distinct strings that differ only by ignorable
characters compare equal both ways. -/
def localeLe (s t : String) : Prop := collKey s ≤ collKey t

/-- Strings free of collation-ignorable characters; on them the modelled
collation keys determine the string. -/
def cleanString (s : String) : Bool := s.data.all (fun c => !(collIgnorable c))

/-- Strings of printable ASCII characters (space through tilde).  On this
fragment the modelled collation distinguishes distinct strings, as the
real default collator does: printable ASCII contains no ignorable
characters and no two distinct such strings are canonically equivalent or
collation-equal. -/
def asciiKey (s : String) : Bool :=
  s.data.all (fun c => decide (32 ≤ c.toNat) && decide (c.toNat ≤ 126))

/-- Strings of ASCII letters and digits — the fragment on which the
modelled collation order (digits before case-folded letters, lower case
first on ties) agrees with the real default collator. -/
def alnumKey (s : String) : Bool :=
  s.data.all (fun c => c.isDigit || c.isUpper || c.isLower)

instance : DecidableRel localeLe := fun s t =>
  inferInstanceAs (Decidable (collKey s ≤ collKey t))

theorem localeLe_total (s t : String) : localeLe s t ∨ localeLe t s :=
  le_total (collKey s) (collKey t)

theorem localeLe_trans {s t u : String} (h₁ : localeLe s t) (h₂ : localeLe t u) :
    localeLe s u :=
  le_trans h₁ h₂

theorem collWeight_caseWeight_inj {c d : Char}
    (hw : collWeight c = collWeight d) (hc : caseWeight c = caseWeight d) :
    c = d := by
  have toNat_eq : ∀ {a b : Char}, a.toNat = b.toNat → a = b := by
    intro a b h
    apply Char.eq_of_val_eq
    apply UInt32.eq_of_toBitVec_eq
    exact BitVec.eq_of_toNat_eq h
  by_cases h₁ : c.isUpper <;> by_cases h₂ : d.isUpper <;>
    simp [collWeight, caseWeight, h₁, h₂] at hw hc
  · exact toNat_eq hw
  · exact toNat_eq hw

theorem map_collWeight_caseWeight_inj : ∀ {l₁ l₂ : List Char},
    l₁.map collWeight = l₂.map collWeight → l₁.map caseWeight = l₂.map caseWeight →
    l₁ = l₂
  | [], [], _, _ => rfl
  | c :: l₁, d :: l₂, hw, hc => by
    simp only [List.map_cons, List.cons.injEq] at hw hc
    exact congrArg₂ (· :: ·) (collWeight_caseWeight_inj hw.1 hc.1)
      (map_collWeight_caseWeight_inj hw.2 hc.2)

theorem localeLe_antisymm_of_clean {s t : String}
    (hs : cleanString s = true) (ht : cleanString t = true)
    (h₁ : localeLe s t) (h₂ : localeLe t s) : s = t := by
  have hfs : s.data.filter (fun c => !(collIgnorable c)) = s.data :=
    List.filter_eq_self.mpr (List.all_eq_true.mp hs)
  have hft : t.data.filter (fun c => !(collIgnorable c)) = t.data :=
    List.filter_eq_self.mpr (List.all_eq_true.mp ht)
  have hkey : collKey s = collKey t := le_antisymm h₁ h₂
  have hpair := congrArg ofLex hkey
  have hw := congrArg Prod.fst hpair
  have hc := congrArg Prod.snd hpair
  simp only [collKey, hfs, hft] at hw hc
  exact String.ext (map_collWeight_caseWeight_inj hw hc)

theorem cleanString_of_asciiKey {s : String} (h : asciiKey s = true) :
    cleanString s = true := by
  rw [cleanString, List.all_eq_true]
  intro c hc
  have hb := List.all_eq_true.mp h c hc
  simp only [Bool.and_eq_true, decide_eq_true_eq] at hb
  simp only [collIgnorable, Bool.not_eq_true', Bool.or_eq_false_iff,
    Bool.and_eq_false_iff]
  refine ⟨⟨⟨by simp; omega, by simp; omega⟩, by simp; omega⟩, by simp; omega⟩

/-! ## Sorting mapping entries

`stableStringify` sorts the entry list of a mapping by key.  The values are
already rendered to strings when the sort happens in this model; since the
comparator reads only the keys and the sort is stable, rendering before or
after sorting yields the same encoding.  `Array.prototype.sort` is required
to be stable, and a stable sort by a consistent comparator has a unique
result: each element is placed by its comparator rank with comparator-equal
elements kept in input order.  `insertionSort` with the non-strict
comparator `entryLe` is such a stable sort (`orderedInsert` places an
earlier element before the first later element it is `≼` to, hence before
comparator-equal later elements), so `sortEntries` computes exactly the
entry order the source computes — including the insertion-order ties of
collation-equal keys. -/

/-- Comparator on rendered entries: compare the keys with `localeLe`. -/
def entryLe (a b : String × String) : Prop := localeLe a.1 b.1

instance : DecidableRel entryLe := fun a b =>
  inferInstanceAs (Decidable (localeLe a.1 b.1))

instance : IsTotal (String × String) entryLe :=
  ⟨fun a b => localeLe_total a.1 b.1⟩

instance : IsTrans (String × String) entryLe :=
  ⟨fun _ _ _ h₁ h₂ => localeLe_trans h₁ h₂⟩

/-- Sort the rendered entries of a mapping by key, as
`entries.sort(([keyA], [keyB]) => keyA.localeCompare(keyB))` does. -/
def sortEntries (l : List (String × String)) : List (String × String) :=
  l.insertionSort entryLe

/-- Strict version of `entryLe`, used to transport sortedness across a
permutation of an entry list whose keys the comparator pairwise
distinguishes. -/
def entryLtStrict (a b : String × String) : Prop := entryLe a b ∧ ¬ entryLe b a

instance : IsAntisymm (String × String) entryLtStrict :=
  ⟨fun _ _ h₁ h₂ => absurd h₁.1 h₂.2⟩

/-! ## Canonical encoding (`stableStringify`) -/

/-- Decimal digit character. -/
def digitChar (n : Nat) : Char := Char.ofNat (48 + n % 10)

/-- Decimal digits of a natural number; the first argument is recursion
fuel, instantiated with the number itself, which always suffices. -/
def natDigitsAux : Nat → Nat → List Char
  | 0, n => [digitChar n]
  | fuel + 1, n => if n < 10 then [digitChar n] else natDigitsAux fuel (n / 10) ++ [digitChar (n % 10)]

/-- Decimal rendering of a natural number. -/
def natStr (n : Nat) : String := ⟨natDigitsAux n n⟩

/-- Decimal rendering of an integer, as `JSON.stringify` renders an
integral number. -/
def intStr (n : Int) : String :=
  if n < 0 then "-" ++ natStr (-n).toNat else natStr n.toNat

/-- Lower-case hexadecimal digit character. -/
def hexDigit (n : Nat) : Char := if n < 10 then Char.ofNat (48 + n) else Char.ofNat (87 + n)

/-- Escape of one character inside a JSON string literal, as
`JSON.stringify` escapes it. -/
def escapeChar (c : Char) : List Char :=
  if c = Char.ofNat 34 then [Char.ofNat 92, Char.ofNat 34]
  else if c = Char.ofNat 92 then [Char.ofNat 92, Char.ofNat 92]
  else if c = Char.ofNat 8 then [Char.ofNat 92, 'b']
  else if c = Char.ofNat 9 then [Char.ofNat 92, 't']
  else if c = Char.ofNat 10 then [Char.ofNat 92, 'n']
  else if c = Char.ofNat 12 then [Char.ofNat 92, 'f']
  else if c = Char.ofNat 13 then [Char.ofNat 92, 'r']
  else if c.toNat < 32 then [Char.ofNat 92, 'u', '0', '0', hexDigit (c.toNat / 16), hexDigit (c.toNat % 16)]
  else [c]

/-- JSON string literal for `s` (`JSON.stringify(s)`). -/
def jsonQuote (s : String) : String :=
  ⟨Char.ofNat 34 :: s.data.foldr (fun c acc => escapeChar c ++ acc) [Char.ofNat 34]⟩

/-- Rendering of one sorted mapping entry, `JSON.stringify(key) + ":" + encodedValue`. -/
def renderEntry (e : String × String) : String := jsonQuote e.1 ++ ":" ++ e.2

mutual
/-- Model of the source's `stableStringify`: `null`/`undefined` encode as
`"null"`, scalars by their JSON literal, sequences element-wise in order,
and mappings with their entries sorted by the `localeCompare` comparator.
In this model a mapping's values are rendered before the sort; since the
comparator reads only keys and the sort is stable, this coincides with the
source, which sorts the entries first. -/
def stableStringify : Json → String
  | .null => "null"
  | .bool b => if b then "true" else "false"
  | .num n => intStr n
  | .str s => jsonQuote s
  | .arr xs => "[" ++ String.intercalate "," (encodeElems xs) ++ "]"
  | .obj fs => "\x7b" ++ String.intercalate "," ((sortEntries (encodeEntries fs)).map renderEntry) ++ "\x7d"

/-- Encodings of the elements of a sequence, in order. -/
def encodeElems : JsonList → List String
  | .nil => []
  | .cons x xs => stableStringify x :: encodeElems xs

/-- Entries of a mapping with their values encoded, in insertion order. -/
def encodeEntries : JsonObj → List (String × String)
  | .nil => []
  | .cons k v fs => (k, stableStringify v) :: encodeEntries fs
end

/-- Model of `createCacheKey`: the canonical fingerprint preimage
`JSON.stringify(\x7balgorithmId, input: stableStringify(input), options:
stableStringify(options)\x7d)`.  The final SHA-256-and-hex step of the
source is omitted from the model: it is a fixed deterministic function of
this preimage, so two fingerprints agree exactly when the code would hash
equal preimages, which is what the claims about the fingerprint concern. -/
def createCacheKey (algorithmId : String) (input options : Json) : String :=
  "\x7b\"algorithmId\":" ++ jsonQuote algorithmId ++
    ",\"input\":" ++ jsonQuote (stableStringify input) ++
    ",\"options\":" ++ jsonQuote (stableStringify options) ++ "\x7d"

/-! ## Structural equality up to mapping key order -/

mutual
/-- Structural equality of JSON-like values up to the insertion order of
mapping keys: scalars must coincide, sequences are compared element-wise in
order, and two mappings are related when one's field list is a permutation
of a field list that matches the other pointwise (same keys, equivalent
values). -/
inductive JEquiv : Json → Json → Prop where
  | null : JEquiv .null .null
  | bool (b : Bool) : JEquiv (.bool b) (.bool b)
  | num (n : Int) : JEquiv (.num n) (.num n)
  | str (s : String) : JEquiv (.str s) (.str s)
  | arr {xs ys : JsonList} : JEquivList xs ys → JEquiv (.arr xs) (.arr ys)
  | obj {fs gs : JsonObj} (mid : JsonObj) : JEquivFields fs mid →
      mid.toList.Perm gs.toList → JEquiv (.obj fs) (.obj gs)

/-- Element-wise `JEquiv` on sequences. -/
inductive JEquivList : JsonList → JsonList → Prop where
  | nil : JEquivList .nil .nil
  | cons {x y : Json} {xs ys : JsonList} :
      JEquiv x y → JEquivList xs ys → JEquivList (.cons x xs) (.cons y ys)

/-- Pointwise `JEquiv` on field lists: same keys in the same positions,
equivalent values. -/
inductive JEquivFields : JsonObj → JsonObj → Prop where
  | nil : JEquivFields .nil .nil
  | cons {k : String} {v w : Json} {fs gs : JsonObj} :
      JEquiv v w → JEquivFields fs gs → JEquivFields (.cons k v fs) (.cons k w gs)
end

/-- Keys of a mapping, in insertion order. -/
def JsonObj.keys : JsonObj → List String
  | .nil => []
  | .cons k _ fs => k :: fs.keys

mutual
/-- Key-safety of a JSON-like value: every mapping occurring in it has
pairwise-distinct keys (automatic for JavaScript objects) that are
printable-ASCII strings — the fragment on which the collation comparator,
both in the model and in the real default locale, distinguishes distinct
keys, so the stable sort leaves no insertion-order ties. -/
def wfJson : Json → Bool
  | .null => true
  | .bool _ => true
  | .num _ => true
  | .str _ => true
  | .arr xs => wfList xs
  | .obj fs => decide fs.keys.Nodup && fs.keys.all (fun k => asciiKey k) && wfFields fs

/-- Well-formedness of every element of a sequence. -/
def wfList : JsonList → Bool
  | .nil => true
  | .cons x xs => wfJson x && wfList xs

/-- Well-formedness of every value of a field list. -/
def wfFields : JsonObj → Bool
  | .nil => true
  | .cons _ v fs => wfJson v && wfFields fs
end

mutual
/-- Size measure on JSON-like values, used for strong induction. -/
def jsize : Json → Nat
  | .null => 1
  | .bool _ => 1
  | .num _ => 1
  | .str _ => 1
  | .arr xs => 1 + jsizeList xs
  | .obj fs => 1 + jsizeFields fs

/-- Size measure on sequences. -/
def jsizeList : JsonList → Nat
  | .nil => 0
  | .cons x xs => 1 + jsize x + jsizeList xs

/-- Size measure on field lists. -/
def jsizeFields : JsonObj → Nat
  | .nil => 0
  | .cons _ v fs => 1 + jsize v + jsizeFields fs
end

/-- Ascending code-point (lexicographic) order on strings: lexicographic
comparison of the sequences of code points.  This is the order the
specification describes for mapping keys. -/
def codePointLe (s t : String) : Prop :=
  s.data.map Char.toNat ≤ t.data.map Char.toNat

instance : DecidableRel codePointLe := fun s t =>
  inferInstanceAs (Decidable (s.data.map Char.toNat ≤ t.data.map Char.toNat))

/-! ## JavaScript string and number coercions -/

mutual
/-- Model of the JavaScript `String(value)` coercion on JSON-like values. -/
def jsToString : Json → String
  | .null => "null"
  | .bool b => if b then "true" else "false"
  | .num n => intStr n
  | .str s => s
  | .arr xs => jsArrayToString xs
  | .obj _ => "[object Object]"

/-- Model of `Array.prototype.toString`: the elements rendered and joined
with commas, with `null` elements rendered empty. -/
def jsArrayToString : JsonList → String
  | .nil => ""
  | .cons x .nil => jsElemToString x
  | .cons x xs => jsElemToString x ++ "," ++ jsArrayToString xs

/-- Rendering of one array element inside a join: `null` is empty,
everything else renders as `String(value)`. -/
def jsElemToString : Json → String
  | .null => ""
  | .bool b => if b then "true" else "false"
  | .num n => intStr n
  | .str s => s
  | .arr xs => jsArrayToString xs
  | .obj _ => "[object Object]"
end

/-- ASCII whitespace test used when trimming a numeric string. -/
def isSpaceChar (c : Char) : Bool :=
  c = ' ' || c = Char.ofNat 9 || c = Char.ofNat 10 || c = Char.ofNat 13

/-- Digits of a trimmed decimal literal to a number, if all characters are
digits. -/
def digitsToNat : List Char → Option Nat
  | [] => none
  | l => l.foldl (fun acc c =>
      match acc with
      | none => none
      | some n => if c.isDigit then some (n * 10 + (c.toNat - 48)) else none)
      (some 0)

/-- Model of `Number(string)`, restricted to the fragment of trimmed
decimal integer literals: an empty remainder is `0`; an optional sign
followed by decimal digits parses to the signed value; everything else
maps to `none`.  This under-approximates `Number()`, which also accepts
hexadecimal (`0x28`), exponent (`1e2`) and trailing-fraction (`40.0`)
spellings of integral values that the source's integer option path would
admit; those spellings are outside the modelled fragment, and no judged
claim's conclusion depends on them. -/
def strToNumber (s : String) : Option Int :=
  let l := (s.data.dropWhile isSpaceChar).reverse.dropWhile isSpaceChar |>.reverse
  match l with
  | [] => some 0
  | '-' :: rest => (digitsToNat rest).map (fun n => -(n : Int))
  | '+' :: rest => (digitsToNat rest).map (fun n => (n : Int))
  | _ => (digitsToNat l).map (fun n => (n : Int))

/-- Model of the JavaScript `Number(value)` coercion on JSON-like values,
restricted to integral results; `none` models `NaN` (and non-integral
values, which every caller in the handler rejects the same way). -/
def jsToNumber : Json → Option Int
  | .null => some 0
  | .bool b => some (if b then 1 else 0)
  | .num n => some n
  | .str s => strToNumber s
  | .arr .nil => some 0
  | .arr (.cons x .nil) => strToNumber (jsElemToString x)
  | .arr _ => none
  | .obj _ => none

/-! ## Minimum-cut input parsing (`KargerMinCutAlgorithm.parseInput`) -/

/-- Parsed minimum-cut input: the distinct vertices in first-seen order and
the stringified edge list. -/
structure KargerInput where
  vertices : List String
  edges : List (String × String)
  deriving DecidableEq, Repr

/-- Model of the nullish-coalescing step `a ?? b` on property reads:
`none` models `undefined`, `some .null` models `null`; both fall through. -/
def nullishOr (a b : Option Json) : Option Json :=
  match a with
  | none => b
  | some .null => b
  | some v => some v

/-- Destructure one raw edge as the source does: a two-element sequence
yields its stringified elements; any other object yields the stringified
values of `from ?? source ?? u` and `to ?? target ?? v` when both chains
end on a defined value; everything else fails.  (An array of a different
length falls into the object branch of the source and fails there because
it has none of the endpoint properties.) -/
def destructureEdge (e : Json) : Option (String × String) :=
  match e with
  | .arr (.cons a (.cons b .nil)) => some (jsToString a, jsToString b)
  | .obj fsE =>
      match nullishOr (nullishOr (fsE.get "from") (fsE.get "source")) (fsE.get "u"),
          nullishOr (nullishOr (fsE.get "to") (fsE.get "target")) (fsE.get "v") with
      | some fv, some tv => some (jsToString fv, jsToString tv)
      | _, _ => none
  | _ => none

/-- Parse the raw edges in order, failing at the first edge that cannot be
destructured, with the index in the message as the source does. -/
def parseEdges (i : Nat) : List Json → Except String (List (String × String))
  | [] => .ok []
  | e :: es =>
    match destructureEdge e with
    | some p => (parseEdges (i + 1) es).map (fun r => p :: r)
    | none => .error ("Edge at index " ++ natStr i ++
        " must be an array like [from, to] or an object with from/to keys.")

/-- First-occurrence deduplication, as iterating a JavaScript `Set` built
from a list yields each element at its first position. -/
def dedupFirstAux (seen : List String) : List String → List String
  | [] => []
  | x :: xs => if x ∈ seen then dedupFirstAux seen xs else x :: dedupFirstAux (x :: seen) xs

/-- Deduplicate keeping first occurrences (`Array.from(new Set(list))`). -/
def dedupFirst (l : List String) : List String := dedupFirstAux [] l

/-- Endpoints of the parsed edges, in edge order
(`edges.flatMap(([from, to]) => [from, to])`). -/
def endpointsOf (edges : List (String × String)) : List String :=
  edges.foldr (fun e acc => e.1 :: e.2 :: acc) []

/-- Explicit vertex list of the raw input: the stringified elements of the
`vertices` property when it is a sequence, otherwise empty. -/
def explicitVertices (raw : Json) : List String :=
  match raw.get "vertices" with
  | some (.arr vs) => vs.toList.map jsToString
  | _ => []

/-- Model of `KargerMinCutAlgorithm.parseInput`.  Failures carry the
`ClientError` messages of the source; the handler maps them to HTTP 400. -/
def parseInput (raw : Json) : Except String KargerInput :=
  match raw with
  | .null | .bool _ | .num _ | .str _ =>
    .error "Input must be a JSON object with an \"edges\" property."
  | .arr _ => .error "Input must include a non-empty \"edges\" array."
  | .obj fsRaw =>
    match (Json.obj fsRaw).get "edges" with
    | some (.arr es) =>
      match es with
      | .nil => .error "Input must include a non-empty \"edges\" array."
      | _ =>
        match parseEdges 0 es.toList with
        | .error m => .error m
        | .ok edges =>
          let vertices := dedupFirst (explicitVertices (Json.obj fsRaw) ++ endpointsOf edges)
          if vertices.length < 2 then
            .error "The graph must contain at least two vertices."
          else
            .ok ⟨vertices, edges⟩
    | _ => .error "Input must include a non-empty \"edges\" array."

instance {e a : Type} [DecidableEq e] [DecidableEq a] : DecidableEq (Except e a) :=
  fun x y =>
    match x, y with
    | .ok u, .ok v =>
      match decEq u v with
      | isTrue h => isTrue (h ▸ rfl)
      | isFalse h => isFalse (fun hh => h (Except.ok.inj hh))
    | .error u, .error v =>
      match decEq u v with
      | isTrue h => isTrue (h ▸ rfl)
      | isFalse h => isFalse (fun hh => h (Except.error.inj hh))
    | .ok _, .error _ => isFalse (fun hh => Except.noConfusion hh)
    | .error _, .ok _ => isFalse (fun hh => Except.noConfusion hh)

/-- Success test for an `Except` value. -/
def isOkE {ε α : Type} : Except ε α → Bool
  | .ok _ => true
  | .error _ => false

/-- Failure condition of C4, phrased as the claim phrases it: the `edges`
property is absent, empty or not a sequence; or some edge can be
destructured neither way; or fewer than two distinct vertices result after
stringifying endpoints and merging with the optional vertices list. -/
def specParseFailure (raw : Json) : Bool :=
  match raw.get "edges" with
  | some (.arr es) =>
    match es with
    | .nil => true
    | _ =>
      if es.toList.any (fun e => (destructureEdge e).isNone) then true
      else
        (dedupFirst (explicitVertices raw ++
          endpointsOf (es.toList.filterMap destructureEdge))).length < 2
  | _ => true

/-! ## Option validation (`AlgorithmBase.parseOptions`) -/

/-- Runtime value of a validated option. -/
inductive OptVal where
  | num (n : Int)
  | str (s : String)
  | bool (b : Bool)
  deriving DecidableEq, Repr

/-- Declared kind of an option. -/
inductive OptType where
  | integer
  | number
  | string
  | boolean
  deriving DecidableEq, Repr

/-- One declarative option definition. -/
structure OptionDef where
  key : String
  label : String
  otype : OptType
  defaultValue : OptVal
  minimum : Option Int := none
  maximum : Option Int := none

/-- Option definitions of `KargerMinCutAlgorithm`: a single integer option
`iterations` with default `40` and range `[1, 1000]`. -/
def kargerOptionDefs : List OptionDef :=
  [⟨"iterations", "Iterations", .integer, .num 40, some 1, some 1000⟩]

/-- Property read `provided[key]`, where `provided` is the raw options when
they are an object and the empty object otherwise. -/
def providedGet (raw : Json) (key : String) : Option Json :=
  match raw with
  | .obj fs => fs.get key
  | _ => none

/-- Range test `num < def.minimum` when a minimum is declared. -/
def belowMin (minimum : Option Int) (n : Int) : Bool :=
  match minimum with
  | some m => decide (n < m)
  | none => false

/-- Range test `num > def.maximum` when a maximum is declared. -/
def aboveMax (maximum : Option Int) (n : Int) : Bool :=
  match maximum with
  | some m => decide (m < n)
  | none => false

/-- Generic association-list lookup (first occurrence). -/
def lookupPair {α : Type} (key : String) : List (String × α) → Option α
  | [] => none
  | (k, v) :: fs => if k = key then some v else lookupPair key fs

/-- Lower-casing of ASCII letters, character-wise. -/
def lowerStr (s : String) : String := ⟨s.data.map Char.toLower⟩

/-- ASCII trim of both ends of a string. -/
def trimStr (s : String) : String :=
  ⟨(s.data.dropWhile isSpaceChar).reverse.dropWhile isSpaceChar |>.reverse⟩

/-- Validation of one declared option against the supplied raw options, as
the `switch` of `parseOptions` does: missing/null/empty-string values take
the default; otherwise the value is coerced and checked per kind. -/
def parseOneOption (d : OptionDef) (raw : Json) : Except String OptVal :=
  match providedGet raw d.key with
  | none => .ok d.defaultValue
  | some .null => .ok d.defaultValue
  | some (.str "") => .ok d.defaultValue
  | some value =>
    match d.otype with
    | .integer =>
      match jsToNumber value with
      | none => .error ("Option \"" ++ d.label ++ "\" must be an integer value.")
      | some n =>
        if belowMin d.minimum n then
          .error ("Option \"" ++ d.label ++ "\" must be >= " ++ intStr (d.minimum.getD 0) ++ ".")
        else if aboveMax d.maximum n then
          .error ("Option \"" ++ d.label ++ "\" must be <= " ++ intStr (d.maximum.getD 0) ++ ".")
        else .ok (.num n)
    | .number =>
      match jsToNumber value with
      | none => .error ("Option \"" ++ d.label ++ "\" must be a numeric value.")
      | some n =>
        if belowMin d.minimum n then
          .error ("Option \"" ++ d.label ++ "\" must be >= " ++ intStr (d.minimum.getD 0) ++ ".")
        else if aboveMax d.maximum n then
          .error ("Option \"" ++ d.label ++ "\" must be <= " ++ intStr (d.maximum.getD 0) ++ ".")
        else .ok (.num n)
    | .boolean =>
      match value with
      | .bool b => .ok (.bool b)
      | .str s =>
        let normalized := lowerStr (trimStr s)
        if normalized = "true" ∨ normalized = "1" then .ok (.bool true)
        else if normalized = "false" ∨ normalized = "0" then .ok (.bool false)
        else .error ("Option \"" ++ d.label ++ "\" must be a boolean.")
      | .num n => .ok (.bool (decide (n ≠ 0)))
      | _ => .error ("Option \"" ++ d.label ++ "\" must be a boolean.")
    | .string => .ok (.str (jsToString value))

/-- Model of `parseOptions`: validate each declared option in declaration
order, failing at the first invalid one; unknown supplied keys are ignored. -/
def parseOptions : List OptionDef → Json → Except String (List (String × OptVal))
  | [], _ => .ok []
  | d :: ds, raw =>
    match parseOneOption d raw with
    | .error m => .error m
    | .ok v => (parseOptions ds raw).map (fun rest => (d.key, v) :: rest)

/-- Model of `KargerMinCutAlgorithm.resolveIterations`: a supplied integral
option value of at least 1 wins; otherwise the heuristic
`clamp(vertexCount², 1, 1000)`. -/
def resolveIterations (input : KargerInput) (options : List (String × OptVal)) : Int :=
  let n : Int := input.vertices.length
  let heuristic := max 1 (min 1000 (n * n))
  match lookupPair "iterations" options with
  | some (.num k) => if 1 ≤ k then k else heuristic
  | _ => heuristic

/-! ## The contraction algorithm (`KargerMinCutAlgorithm.singleRun`) -/

/-- Model of `Map.set`: replace the value of an existing key in place,
append a missing key. -/
def mapSet (k : String) (v : List String) (m : List (String × List String)) :
    List (String × List String) :=
  if m.any (fun p => decide (p.1 = k)) then
    m.map (fun p => if p.1 = k then (k, v) else p)
  else m ++ [(k, v)]

/-- Model of `Map.delete`. -/
def mapDelete (k : String) (m : List (String × List String)) :
    List (String × List String) :=
  m.filter (fun p => decide (p.1 ≠ k))

/-- Model of `Map.get`. -/
def mapLookup (k : String) (m : List (String × List String)) : Option (List String) :=
  (m.find? (fun p => decide (p.1 = k))).map (fun p => p.2)

/-- Model of `Map.has`. -/
def mapHasKey (k : String) (m : List (String × List String)) : Bool :=
  m.any (fun p => decide (p.1 = k))

/-- Initial representative map: one singleton component per vertex, in
order. -/
def initComponents (vertices : List String) : List (String × List String) :=
  vertices.foldl (fun m v => mapSet v [v] m) []

/-- Model of `findRepresentative`: a present key answers itself, otherwise
the first component whose member set contains the label answers its key;
`none` models the thrown internal error. -/
def findRepresentative (label : String) (components : List (String × List String)) :
    Option String :=
  if mapHasKey label components then some label
  else (components.find? (fun p => decide (label ∈ p.2))).map (fun p => p.1)

/-- Sort in the default `Array.prototype.sort()` order (code points). -/
def sortStrings (l : List String) : List String := l.insertionSort codePointLe

/-- Union of two member sets in JavaScript `Set` insertion order. -/
def setUnion (a b : List String) : List String :=
  a ++ b.filter (fun x => decide (x ∉ a))

/-- Merged representative label: the sorted absorbed vertices joined with
bars, then a hash and the step counter. -/
def mkLabel (members : List String) (step : Nat) : String :=
  String.intercalate "|" (sortStrings members) ++ "#" ++ natStr step

/-- Model of `mergeComponents`: delete both old keys, insert the merged
member set under the derived label; `none` models the thrown internal
error. -/
def mergeComponents (fromKey toKey : String)
    (components : List (String × List String)) (step : Nat) :
    Option (String × List (String × List String)) :=
  match mapLookup fromKey components, mapLookup toKey components with
  | some fromSet, some toSet =>
    let merged := setUnion fromSet toSet
    let label := mkLabel merged step
    some (label, mapSet label merged (mapDelete toKey (mapDelete fromKey components)))
  | _, _ => none

/-- Rewrite of one working edge after a merge: endpoints that referenced
either old representative now reference the merged label. -/
def relabelEdge (fromKey toKey label : String) (e : String × String) : String × String :=
  (if e.1 = fromKey ∨ e.1 = toKey then label else e.1,
   if e.2 = fromKey ∨ e.2 = toKey then label else e.2)

/-- The contraction loop.  `rand k` chooses the random edge index of the
iteration after `k` completed ones (reduced modulo the current edge count,
so every trace of `Math.floor(Math.random() * edges.length)` is some
stream); the first argument is recursion fuel, which `singleRun` seeds with
`components.length + edges.length` — an upper bound on the number of
iterations, since each iteration removes an edge or merges two components
(see `contractLoop_fuel_sufficient`). -/
def contractLoop (rand : Nat → Nat) :
    Nat → Nat → List (String × List String) → List (String × String) →
    Except String (List (String × List String))
  | 0, _, components, _ => .ok components
  | fuel + 1, k, components, edges =>
    if 2 < components.length ∧ edges ≠ [] then
      match findRepresentative (edges.getD (rand k % edges.length) ("", "")).1 components,
          findRepresentative (edges.getD (rand k % edges.length) ("", "")).2 components with
      | some fromKey, some toKey =>
        if fromKey = toKey then
          contractLoop rand fuel (k + 1) components
            (edges.eraseIdx (rand k % edges.length))
        else
          match mergeComponents fromKey toKey components (k + 1) with
          | some (label, merged) =>
            contractLoop rand fuel (k + 1) merged
              ((edges.map (relabelEdge fromKey toKey label)).filter
                (fun e2 => decide (e2.1 ≠ e2.2)))
          | none => .error "Attempted to merge components that do not exist."
      | none, _ =>
        .error ("Vertex " ++ (edges.getD (rand k % edges.length) ("", "")).1 ++
          " is missing from the component map.")
      | some _, none =>
        .error ("Vertex " ++ (edges.getD (rand k % edges.length) ("", "")).2 ++
          " is missing from the component map.")
    else .ok components

/-- Outcome of one contraction run. -/
structure RunOutcome where
  cut : Nat
  partA : List String
  partB : List String
  deriving DecidableEq, Repr

/-- Model of `computeCutSize`: count the edges whose one endpoint lies in
the first partition and whose other endpoint lies in the second. -/
def computeCutSize (partA partB : List String) (edges : List (String × String)) : Nat :=
  edges.foldl (fun cut e =>
    if (decide (e.1 ∈ partA) && decide (e.2 ∈ partB)) ||
        (decide (e.1 ∈ partB) && decide (e.2 ∈ partA)) then cut + 1 else cut) 0

/-- Model of `singleRun`: contract until at most two groups (or no edges)
remain; on exactly two groups the cut is recomputed over the original edge
list; on any other count the run reports cut 0 with every surviving member
in the first partition and an empty second partition. -/
def singleRun (rand : Nat → Nat) (input : KargerInput) : Except String RunOutcome :=
  let components := initComponents input.vertices
  match contractLoop rand (components.length + input.edges.length) 0 components
      input.edges with
  | .error e => .error e
  | .ok remaining =>
    match remaining with
    | [a, b] => .ok ⟨computeCutSize a.2 b.2 input.edges, a.2, b.2⟩
    | [a] => .ok ⟨0, a.2, []⟩
    | other => .ok ⟨0, (other.map (fun p => p.2)).foldr (· ++ ·) [], []⟩

/-! ## Execution over all iterations (`KargerMinCutAlgorithm.execute`) -/

/-- Convert a list of values to a `JsonList`. -/
def JsonList.ofList : List Json → JsonList
  | [] => .nil
  | x :: xs => .cons x (JsonList.ofList xs)

/-- JSON rendering of a string list. -/
def strListJson (l : List String) : Json := .arr (JsonList.ofList (l.map Json.str))

/-- Execution result as stored and returned: output value, summary and the
optional diagnostics map. -/
structure StoredResult where
  output : Json
  summary : String
  diagnostics : Option (List (String × Json))
  deriving DecidableEq

/-- Best-so-far state of the iteration loop; `bestCut = none` models the
initial `Infinity`. -/
structure BestState where
  bestCut : Option Nat
  bestA : List String
  bestB : List String
  bestIteration : Nat
  history : List (Nat × Nat)
  deriving DecidableEq, Repr

/-- Strict comparison `cut < bestCut` against the possibly-infinite best. -/
def cutLtBest (c : Nat) (best : Option Nat) : Bool :=
  match best with
  | none => true
  | some b => decide (c < b)

/-- The iteration loop of `execute`: run `singleRun` once per iteration,
record the history entry, and keep the strictly smallest cut (ties keep the
first). -/
def execLoop (rands : Nat → Nat → Nat) (input : KargerInput) (total : Nat) :
    Nat → BestState → Except String BestState
  | 0, st => .ok st
  | remaining + 1, st =>
    let iteration := total - remaining
    match singleRun (rands iteration) input with
    | .error e => .error e
    | .ok out =>
      let hist := st.history ++ [(iteration, out.cut)]
      let st3 : BestState :=
        if cutLtBest out.cut st.bestCut then
          ⟨some out.cut, out.partA, out.partB, iteration, hist⟩
        else
          ⟨st.bestCut, st.bestA, st.bestB, st.bestIteration, hist⟩
      execLoop rands input total remaining st3

/-- JSON rendering of the algorithm output
`\x7bminCut, partitions: [partA, partB]\x7d`. -/
def kargerOutputJson (cut : Nat) (partA partB : List String) : Json :=
  .obj (.cons "minCut" (.num cut)
    (.cons "partitions" (.arr (.cons (strListJson partA) (.cons (strListJson partB) .nil)))
      .nil))

/-- Model of `execute`: resolve the iteration count, run the loop, then
assemble output, summary and diagnostics.  `bestCut.getD 0` is never the
fallback in reachable states because the resolved iteration count is at
least 1, so at least one run sets the best. -/
def execute (rands : Nat → Nat → Nat) (input : KargerInput)
    (options : List (String × OptVal)) : Except String StoredResult :=
  let iterations := resolveIterations input options
  match execLoop rands input iterations.toNat iterations.toNat ⟨none, [], [], 0, []⟩ with
  | .error e => .error e
  | .ok st =>
    let minCut := st.bestCut.getD 0
    .ok ⟨kargerOutputJson minCut st.bestA st.bestB,
      "Estimated minimum cut is " ++ natStr minCut ++ " based on " ++
        intStr iterations ++ " iteration" ++ (if iterations = 1 then "" else "s") ++ ".",
      some [("iterations", .num iterations),
        ("bestIteration", .num st.bestIteration),
        ("runHistory", .arr (JsonList.ofList (st.history.map (fun h =>
          Json.obj (.cons "iteration" (.num h.1) (.cons "cut" (.num h.2) .nil))))))]⟩

/-! ## Execution engine (`handleRunAlgorithm` and the handler) -/

/-- Record persisted in the Result Store for one fingerprint. -/
structure CacheRecord where
  id : String
  algorithmId : String
  createdAt : String
  result : StoredResult
  deriving DecidableEq

/-- HTTP response; the body is modelled before serialization. -/
structure Response where
  statusCode : Nat
  body : Json
  deriving DecidableEq

/-- Failure classification of the handler's catch clause: a `ClientError`
carries status 400 and its message; anything else maps to 500 with the
thrown error's own message when the thrown value is an `Error`, and with
the generic message otherwise. -/
inductive HandlerError where
  | client (msg : String)
  | internalErr (msg : String)
  | internalNonError
  deriving DecidableEq, Repr

/-- Model of the handler's catch clause building the error response. -/
def errorResponse : HandlerError → Response
  | .client m => ⟨400, .obj (.cons "message" (.str m) .nil)⟩
  | .internalErr m => ⟨500, .obj (.cons "message" (.str m) .nil)⟩
  | .internalNonError => ⟨500, .obj (.cons "message" (.str "Internal server error") .nil)⟩

/-- Result of the engine on one `/run` request: the response and the list
of Result Store writes performed. -/
structure EngineResult where
  response : Response
  writes : List (String × CacheRecord)
  deriving DecidableEq

/-- Replace-or-append on a diagnostics map: the object spread
`\x7b...diagnostics, optionsUsed: options\x7d` keeps an existing key in
place with the new value and appends a missing key. -/
def upsertField (key : String) (v : Json) (fs : List (String × Json)) :
    List (String × Json) :=
  if fs.any (fun p => decide (p.1 = key)) then
    fs.map (fun p => if p.1 = key then (key, v) else p)
  else fs ++ [(key, v)]

/-- JSON value of one validated option. -/
def optValJson : OptVal → Json
  | .num n => .num n
  | .str s => .str s
  | .bool b => .bool b

/-- JSON object of the validated options map. -/
def optionsJson (opts : List (String × OptVal)) : Json :=
  .obj (JsonObj.ofList (opts.map (fun p => (p.1, optValJson p.2))))

/-- Model of `augmentResultWithOptions`: keep every field of the result,
spread the diagnostics (absent diagnostics spread as empty) and overwrite
`optionsUsed` with the current validated options. -/
def augmentResultWithOptions (r : StoredResult) (opts : List (String × OptVal)) :
    StoredResult :=
  { r with diagnostics := some (upsertField "optionsUsed" (optionsJson opts)
      (r.diagnostics.getD [])) }

/-- JSON rendering of a stored result inside a response body. -/
def storedResultJson (r : StoredResult) : Json :=
  .obj (.cons "output" r.output (.cons "summary" (.str r.summary)
    (match r.diagnostics with
     | some d => .cons "diagnostics" (.obj (JsonObj.ofList d)) .nil
     | none => .nil)))

/-- Body of a successful `/run` response. -/
def runResponseBody (algorithmId : String) (cached : Bool) (r : StoredResult) : Json :=
  .obj (.cons "algorithmId" (.str algorithmId)
    (.cons "cached" (.bool cached) (.cons "result" (storedResultJson r) .nil)))

/-- JSON value of a parsed input, as the prepared input object
`\x7bvertices, edges\x7d` that `createCacheKey` canonicalizes. -/
def kargerInputJson (input : KargerInput) : Json :=
  .obj (.cons "vertices" (.arr (JsonList.ofList (input.vertices.map Json.str)))
    (.cons "edges" (.arr (JsonList.ofList (input.edges.map (fun e =>
      Json.arr (.cons (.str e.1) (.cons (.str e.2) .nil)))))) .nil))

/-- Defaulting property read `payload.key ?? dflt`. -/
def nullishGetD (payload : Json) (key : String) (dflt : Json) : Json :=
  match payload.get key with
  | none => dflt
  | some .null => dflt
  | some v => v

/-- Model of `handleRunAlgorithm` on an already-parsed request body.  The
Result Store is the injected `store`; `now` is the `createdAt` timestamp;
`rands` drives the contraction runs.  Early validation failures return
their 400/404 responses directly, as the source does; errors thrown past
that point surface as `HandlerError` values that the handler's catch
clause maps (`handleTop`). -/
def handleRunAlgorithm (rands : Nat → Nat → Nat) (now : String)
    (store : String → Option CacheRecord) (payload : Json) :
    Except HandlerError EngineResult :=
  match payload.get "algorithmId" with
  | some (.str algorithmId) =>
    if algorithmId = "karger-min-cut" then
      match parseInput (nullishGetD payload "input" (.obj .nil)) with
      | .error m => .error (.client m)
      | .ok input =>
        match parseOptions kargerOptionDefs (nullishGetD payload "options" (.obj .nil)) with
        | .error m => .error (.client m)
        | .ok opts =>
          let cacheKey := createCacheKey "karger-min-cut" (kargerInputJson input)
            (optionsJson opts)
          match store cacheKey with
          | some stored =>
            .ok ⟨⟨200, runResponseBody "karger-min-cut" true
              (augmentResultWithOptions stored.result opts)⟩, []⟩
          | none =>
            match execute rands input opts with
            | .error m => .error (.internalErr m)
            | .ok runResult =>
              let result := augmentResultWithOptions runResult opts
              .ok ⟨⟨200, runResponseBody "karger-min-cut" false result⟩,
                [(cacheKey, ⟨cacheKey, "karger-min-cut", now, result⟩)]⟩
    else
      .ok ⟨⟨404, .obj (.cons "message"
        (.str ("Algorithm with id \"" ++ algorithmId ++ "\" was not found.")) .nil)⟩, []⟩
  | _ =>
    .ok ⟨⟨400, .obj (.cons "message"
      (.str "Missing required property \"algorithmId\".") .nil)⟩, []⟩

/-- Model of the handler's try/catch around the engine: a thrown error
becomes its error response, and no store write happens. -/
def handleTop (r : Except HandlerError EngineResult) : EngineResult :=
  match r with
  | .ok x => x
  | .error e => ⟨errorResponse e, []⟩

/-! ## Route normalization and dispatch (`normalisePath`, `handler`) -/

/-- Strip every trailing slash (`path.replace(/\/+$/, '')`). -/
def stripTrailingSlashes (p : String) : String :=
  ⟨(p.data.reverse.dropWhile (fun c => decide (c = '/'))).reverse⟩

/-- Model of `normalisePath` on plain absolute paths (no query, fragment,
dot segments or percent escapes — inputs on which WHATWG URL parsing
returns the path unchanged): an absent or empty path is `/`; otherwise all
trailing slashes are stripped, and an emptied path becomes `/`. -/
def normalisePath (path : Option String) : String :=
  match path with
  | none => "/"
  | some p =>
    if p = "" then "/"
    else
      let q := stripTrailingSlashes p
      if q = "" then "/" else q

/-- Route targets of the handler dispatch. -/
inductive RouteTarget where
  | options
  | algorithms
  | run
  | health
  | notFound
  deriving DecidableEq, Repr

/-- Model of the handler's method/path dispatch. -/
def dispatch (method : String) (rawPath : Option String) : RouteTarget :=
  let path := normalisePath rawPath
  if method = "OPTIONS" then .options
  else if method = "GET" ∧ path = "/algorithms" then .algorithms
  else if method = "POST" ∧ path = "/run" then .run
  else if method = "GET" ∧ path = "/health" then .health
  else .notFound

/-! ## Diagnostics accessors used by the claim statements -/

/-- Read the `iterations` entry of an execution result's diagnostics. -/
def diagIterations (r : Except String StoredResult) : Option Json :=
  match r with
  | .ok out => lookupPair "iterations" (out.diagnostics.getD [])
  | .error _ => none

/-- Length of the `runHistory` diagnostics trace, i.e. the number of
contraction runs performed. -/
def diagHistoryLength (r : Except String StoredResult) : Option Nat :=
  match r with
  | .ok out =>
    match lookupPair "runHistory" (out.diagnostics.getD []) with
    | some (.arr xs) => some xs.toList.length
    | _ => none
  | .error _ => none

/-!
Properties.

The remainder of the file proves the properties of the embedded
definitions: supporting lemmas first, then for each claim its theorem and,
where applicable, witness and counterexample theorems.
-/

/-! ## Claims C1 and C7: determinism and ordering of the canonical encoding -/

theorem sortEntries_sorted (l : List (String × String)) :
    List.Sorted entryLe (sortEntries l) :=
  List.sorted_insertionSort entryLe l

theorem sortEntries_perm (l : List (String × String)) :
    (sortEntries l).Perm l :=
  List.perm_insertionSort entryLe l

theorem sorted_entryLtStrict_of_nodup_ascii {l : List (String × String)}
    (hs : List.Sorted entryLe l) (hnd : (l.map Prod.fst).Nodup)
    (hasc : ∀ p ∈ l, asciiKey p.1 = true) :
    List.Sorted entryLtStrict l := by
  have hne : l.Pairwise (fun a b : String × String => a.1 ≠ b.1) :=
    List.pairwise_map.mp hnd
  refine List.Pairwise.imp_of_mem ?_ (hs.and hne)
  intro a b ha hb hab
  refine ⟨hab.1, fun hba => hab.2 ?_⟩
  exact localeLe_antisymm_of_clean (cleanString_of_asciiKey (hasc a ha))
    (cleanString_of_asciiKey (hasc b hb)) hab.1 hba

/-- Determinism of the entry sort on entry lists whose keys are
pairwise-distinct printable-ASCII strings: two permutations of such a list
sort to the same list.  (Without that restriction the stable sort keeps
collation-equal keys in insertion order, and permutations can sort
differently.) -/
theorem sortEntries_eq_of_perm {l₁ l₂ : List (String × String)}
    (hp : l₁.Perm l₂) (hnd : (l₁.map Prod.fst).Nodup)
    (hasc : ∀ p ∈ l₁, asciiKey p.1 = true) :
    sortEntries l₁ = sortEntries l₂ := by
  have hnd₂ : (l₂.map Prod.fst).Nodup := ((hp.map Prod.fst).nodup_iff).mp hnd
  have hasc₂ : ∀ p ∈ l₂, asciiKey p.1 = true := fun p hm =>
    hasc p (hp.mem_iff.mpr hm)
  have hperm : (sortEntries l₁).Perm (sortEntries l₂) :=
    ((sortEntries_perm l₁).trans hp).trans (sortEntries_perm l₂).symm
  have hs₁ : List.Sorted entryLtStrict (sortEntries l₁) :=
    sorted_entryLtStrict_of_nodup_ascii (sortEntries_sorted l₁)
      (((sortEntries_perm l₁).map Prod.fst).nodup_iff.mpr hnd)
      (fun p hm => hasc p ((sortEntries_perm l₁).mem_iff.mp hm))
  have hs₂ : List.Sorted entryLtStrict (sortEntries l₂) :=
    sorted_entryLtStrict_of_nodup_ascii (sortEntries_sorted l₂)
      (((sortEntries_perm l₂).map Prod.fst).nodup_iff.mpr hnd₂)
      (fun p hm => hasc₂ p ((sortEntries_perm l₂).mem_iff.mp hm))
  exact List.eq_of_perm_of_sorted hperm hs₁ hs₂

mutual
theorem jequiv_refl : ∀ a : Json, JEquiv a a
  | .null => .null
  | .bool b => .bool b
  | .num n => .num n
  | .str s => .str s
  | .arr xs => .arr (jequivList_refl xs)
  | .obj fs => .obj fs (jequivFields_refl fs) (List.Perm.refl _)

theorem jequivList_refl : ∀ xs : JsonList, JEquivList xs xs
  | .nil => .nil
  | .cons x xs => .cons (jequiv_refl x) (jequivList_refl xs)

theorem jequivFields_refl : ∀ fs : JsonObj, JEquivFields fs fs
  | .nil => .nil
  | .cons _ v fs => .cons (jequiv_refl v) (jequivFields_refl fs)
end

theorem encodeEntries_eq_map : ∀ fs : JsonObj,
    encodeEntries fs = fs.toList.map (fun p => (p.1, stableStringify p.2))
  | .nil => rfl
  | .cons k v fs => by
    simp [encodeEntries, JsonObj.toList, encodeEntries_eq_map fs]

theorem encodeEntries_map_fst : ∀ fs : JsonObj,
    (encodeEntries fs).map Prod.fst = fs.keys
  | .nil => rfl
  | .cons k v fs => by
    simp [encodeEntries, JsonObj.keys, encodeEntries_map_fst fs]

mutual
/-- Core of C1: structurally equal well-formed values have identical
canonical encodings. -/
theorem stringify_eq_of_jequiv : ∀ {a b : Json}, JEquiv a b →
    wfJson a = true → stableStringify a = stableStringify b
  | _, _, .null, _ => rfl
  | _, _, .bool _, _ => rfl
  | _, _, .num _, _ => rfl
  | _, _, .str _, _ => rfl
  | _, _, .arr hlist, hwf => by
    simp only [stableStringify]
    rw [encodeElems_eq_of_jequivList hlist hwf]
  | _, _, @JEquiv.obj fs gs mid hfields hperm, hwf => by
    have hwf2 : decide fs.keys.Nodup = true ∧
        fs.keys.all (fun k => asciiKey k) = true ∧ wfFields fs = true := by
      simpa [wfJson, Bool.and_eq_true, and_assoc] using hwf
    have h₁ : encodeEntries fs = encodeEntries mid :=
      encodeEntries_eq_of_jequivFields hfields hwf2.2.2
    have h₂ : (encodeEntries mid).Perm (encodeEntries gs) := by
      rw [encodeEntries_eq_map, encodeEntries_eq_map]
      exact hperm.map _
    have hnd : ((encodeEntries fs).map Prod.fst).Nodup := by
      rw [encodeEntries_map_fst]
      exact of_decide_eq_true hwf2.1
    have hasc : ∀ p ∈ encodeEntries fs, asciiKey p.1 = true := by
      intro p hm
      have hkey : p.1 ∈ fs.keys := by
        rw [← encodeEntries_map_fst]
        exact List.mem_map.mpr ⟨p, hm, rfl⟩
      exact List.all_eq_true.mp hwf2.2.1 p.1 hkey
    have hsort : sortEntries (encodeEntries fs) = sortEntries (encodeEntries gs) :=
      sortEntries_eq_of_perm (h₁ ▸ h₂) hnd hasc
    simp only [stableStringify]
    rw [hsort]

theorem encodeElems_eq_of_jequivList : ∀ {xs ys : JsonList}, JEquivList xs ys →
    wfList xs = true → encodeElems xs = encodeElems ys
  | _, _, .nil, _ => rfl
  | _, _, .cons hxy htail, hw => by
    have hw2 := Bool.and_eq_true .. |>.mp hw
    simp only [encodeElems]
    exact congrArg₂ (· :: ·) (stringify_eq_of_jequiv hxy hw2.1)
      (encodeElems_eq_of_jequivList htail hw2.2)

theorem encodeEntries_eq_of_jequivFields : ∀ {fs gs : JsonObj}, JEquivFields fs gs →
    wfFields fs = true → encodeEntries fs = encodeEntries gs
  | _, _, .nil, _ => rfl
  | _, _, .cons hvw htail, hw => by
    have hw2 := Bool.and_eq_true .. |>.mp hw
    simp only [encodeEntries]
    exact congrArg₂ (· :: ·) (congrArg _ (stringify_eq_of_jequiv hvw hw2.1))
      (encodeEntries_eq_of_jequivFields htail hw2.2)
end

/-- C1 (amended).  For every pair of JSON-like values that are
structurally equal up to mapping key insertion order, in which every
mapping's keys are pairwise-distinct printable-ASCII strings (`wfJson` —
the fragment on which the collation comparator provably distinguishes
distinct keys, in the model as in the real default locale), the canonical
encoding produced by `stableStringify` is identical, and hence the
fingerprint preimage built by `createCacheKey` from
`(algorithmId, input, options)` — and with it the fingerprint — is identical
regardless of field insertion order in the original request.  The
unrestricted claim is false of the program: see the counterexample
theorem, where two distinct keys differing only by a completely-ignorable
character compare equal under the collator and the stable sort keeps them
in insertion order. -/
theorem stableStringify_and_cacheKey_invariant_under_key_order
    (algorithmId : String) (input₁ input₂ options₁ options₂ : Json)
    (hin : JEquiv input₁ input₂) (hop : JEquiv options₁ options₂)
    (hwin : wfJson input₁ = true) (hwop : wfJson options₁ = true) :
    stableStringify input₁ = stableStringify input₂ ∧
      createCacheKey algorithmId input₁ options₁ =
        createCacheKey algorithmId input₂ options₂ := by
  have h₁ : stableStringify input₁ = stableStringify input₂ :=
    stringify_eq_of_jequiv hin hwin
  have h₂ : stableStringify options₁ = stableStringify options₂ :=
    stringify_eq_of_jequiv hop hwop
  exact ⟨h₁, by simp [createCacheKey, h₁, h₂]⟩

/-- Witness for C1 at a concrete input: the mappings
`\x7bb: 1, a: null\x7d` and `\x7ba: null, b: 1\x7d` differ only in key
insertion order and get the same canonical encoding and cache key. -/
theorem stableStringify_key_order_witness :
    stableStringify (.obj (.cons "b" (.num 1) (.cons "a" .null .nil))) =
      stableStringify (.obj (.cons "a" .null (.cons "b" (.num 1) .nil))) ∧
      createCacheKey "karger-min-cut"
          (.obj (.cons "b" (.num 1) (.cons "a" .null .nil))) (.obj .nil) =
        createCacheKey "karger-min-cut"
          (.obj (.cons "a" .null (.cons "b" (.num 1) .nil))) (.obj .nil) :=
  stableStringify_and_cacheKey_invariant_under_key_order "karger-min-cut"
    _ _ _ _
    (JEquiv.obj (.cons "b" (.num 1) (.cons "a" .null .nil))
      (jequivFields_refl _) (List.Perm.swap ("a", Json.null) ("b", Json.num 1) []))
    (jequiv_refl _) (by decide) (by decide)

/-- Counterexample to C1 as stated: the keys `a` and `a\x01` are distinct,
but the control character U+0001 is completely ignorable in the default
collation, so the comparator treats the keys as equal; the stable sort
keeps them in insertion order, and the two mappings below — structurally
equal up to key insertion order, with pairwise-distinct keys — encode
differently and get different fingerprint preimages. -/
theorem stableStringify_ignorable_key_tie_counterexample :
    ("a" : String) ≠ "a\x01" ∧
    localeLe "a" "a\x01" ∧ localeLe "a\x01" "a" ∧
    JEquiv (.obj (.cons "a" (.num 1) (.cons "a\x01" (.num 2) .nil)))
      (.obj (.cons "a\x01" (.num 2) (.cons "a" (.num 1) .nil))) ∧
    stableStringify (.obj (.cons "a" (.num 1) (.cons "a\x01" (.num 2) .nil))) ≠
      stableStringify (.obj (.cons "a\x01" (.num 2) (.cons "a" (.num 1) .nil))) ∧
    createCacheKey "karger-min-cut"
        (.obj (.cons "a" (.num 1) (.cons "a\x01" (.num 2) .nil))) (.obj .nil) ≠
      createCacheKey "karger-min-cut"
        (.obj (.cons "a\x01" (.num 2) (.cons "a" (.num 1) .nil))) (.obj .nil) :=
  ⟨by decide, by decide, by decide,
    JEquiv.obj (.cons "a" (.num 1) (.cons "a\x01" (.num 2) .nil))
      (jequivFields_refl _)
      (List.Perm.swap ("a\x01", Json.num 2) ("a", Json.num 1) []),
    by decide, by decide⟩

/-- C7 (amended).  For every mapping whose keys consist of ASCII letters
and digits — the fragment on which `localeLe` provably agrees with the
default collator's order — the canonical encoding lists the entries sorted
ascending under the `localeCompare` comparator (digits before case-folded
letters, lower case before upper case on ties), as a permutation of the
original entries.  This is not ascending code-point order, and for keys
outside this fragment that the collator treats as equal, the stable sort
keeps insertion order rather than discarding it — both are shown by the
counterexample theorem.  (The key-restriction hypothesis scopes the
statement to where the comparator model is faithful; the model satisfies
the conclusion for every mapping.) -/
theorem stableStringify_obj_sorted_by_locale (fs : JsonObj)
    (hkeys : ∀ k ∈ fs.keys, alnumKey k = true) :
    stableStringify (.obj fs) =
      "\x7b" ++ String.intercalate ","
        ((sortEntries (encodeEntries fs)).map renderEntry) ++ "\x7d" ∧
      List.Pairwise (fun a b : String × String => localeLe a.1 b.1)
        (sortEntries (encodeEntries fs)) ∧
      ((sortEntries (encodeEntries fs)).map Prod.fst).Perm fs.keys := by
  refine ⟨rfl, sortEntries_sorted _, ?_⟩
  rw [← encodeEntries_map_fst]
  exact (sortEntries_perm _).map Prod.fst

/-- Witness for the amended C7 at the mapping with keys `B` and `a`: the
encoding sorts `a` before `B`. -/
theorem stableStringify_obj_sorted_by_locale_witness :
    stableStringify (.obj (.cons "B" .null (.cons "a" .null .nil))) =
      "\x7b" ++ String.intercalate ","
        ((sortEntries (encodeEntries (.cons "B" .null (.cons "a" .null .nil)))).map
          renderEntry) ++ "\x7d" ∧
      List.Pairwise (fun a b : String × String => localeLe a.1 b.1)
        (sortEntries (encodeEntries (.cons "B" .null (.cons "a" .null .nil)))) ∧
      ((sortEntries (encodeEntries
        (.cons "B" .null (.cons "a" .null .nil)))).map Prod.fst).Perm
        (JsonObj.cons "B" .null (.cons "a" .null .nil)).keys :=
  stableStringify_obj_sorted_by_locale (.cons "B" .null (.cons "a" .null .nil))
    (by decide)

/-- Counterexample to C7 as stated, on both counts.  Code-point order: for
the mapping with keys `B` and `a`, the canonical encoding lists `a` before
`B`, although in ascending code-point order `B` (code 66) comes before `a`
(code 97) — the source sorts with `localeCompare`, whose default-locale
collation groups letters case-insensitively.  Insertion order discarded:
the distinct keys `b` and `b\x01` compare equal (U+0001 is completely
ignorable), and the stable sort keeps them in whichever insertion order
the mapping supplies, so insertion order is observable in the encoding. -/
theorem stableStringify_obj_not_codepoint_sorted :
    stableStringify (.obj (.cons "B" .null (.cons "a" .null .nil))) =
      "\x7b\"a\":null,\"B\":null\x7d" ∧
      ¬ codePointLe "a" "B" ∧
      ¬ List.Pairwise codePointLe
        ((sortEntries (encodeEntries (.cons "B" .null (.cons "a" .null .nil)))).map
          Prod.fst) ∧
      ("b" : String) ≠ "b\x01" ∧
      localeLe "b" "b\x01" ∧ localeLe "b\x01" "b" ∧
      stableStringify (.obj (.cons "b\x01" .null (.cons "b" .null .nil))) =
        "\x7b\"b\\u0001\":null,\"b\":null\x7d" ∧
      stableStringify (.obj (.cons "b" .null (.cons "b\x01" .null .nil))) =
        "\x7b\"b\":null,\"b\\u0001\":null\x7d" := by
  refine ⟨by decide, by decide, by decide, by decide, by decide, by decide,
    by decide, by decide⟩

set_option maxRecDepth 4000 in

/-- Counterexample to C2 as stated: on the two-vertex graph `A - B` with no
supplied `iterations` option, `parseOptions` fills in the declared default
40, `resolveIterations` returns that default, and the execution performs
and reports 40 contraction runs — not `clamp(vertexCount², 1, 1000) = 4` as
the claim requires.  The heuristic is unreachable behind the validated
default. -/

theorem iterations_default_not_heuristic_counterexample :
    parseOptions kargerOptionDefs (.obj .nil) = .ok [("iterations", OptVal.num 40)] ∧
    resolveIterations ⟨["A", "B"], [("A", "B")]⟩ [("iterations", OptVal.num 40)] = 40 ∧
    diagIterations (execute (fun _ _ => 0) ⟨["A", "B"], [("A", "B")]⟩
      [("iterations", OptVal.num 40)]) = some (.num 40) ∧
    diagHistoryLength (execute (fun _ _ => 0) ⟨["A", "B"], [("A", "B")]⟩
      [("iterations", OptVal.num 40)]) = some 40 ∧
    max 1 (min 1000 ((2 : Int) * 2)) = 4 ∧ (40 : Int) ≠ 4 := by
  refine ⟨by decide, by decide, by decide, by decide, by decide, by decide⟩

/-- C2 (amended).  When the caller supplies no explicit `iterations` value
(the property is absent, `null`, or the empty string), option validation
fills in the declared default 40 and `resolveIterations` returns 40 for
every input — the `clamp(vertexCount², 1, 1000)` heuristic, which the
source only consults when the validated value is not an integer of at
least 1, is not reached on this path. -/
theorem resolveIterations_default_is_forty (raw : Json)
    (h : providedGet raw "iterations" = none ∨
      providedGet raw "iterations" = some .null ∨
      providedGet raw "iterations" = some (.str "")) :
    parseOptions kargerOptionDefs raw = .ok [("iterations", OptVal.num 40)] ∧
    ∀ input : KargerInput, resolveIterations input [("iterations", OptVal.num 40)] = 40 := by
  constructor
  · have hone : parseOneOption ⟨"iterations", "Iterations", .integer, .num 40,
        some 1, some 1000⟩ raw = .ok (.num 40) := by
      unfold parseOneOption
      rcases h with h | h | h <;> simp [h]
    simp [kargerOptionDefs, parseOptions, hone, Except.map]
  · intro input
    rfl

/-- Witness for the amended C2 at the empty options object and a concrete
input. -/
theorem resolveIterations_default_is_forty_witness :
    providedGet (.obj .nil) "iterations" = none ∧
    parseOptions kargerOptionDefs (.obj .nil) = .ok [("iterations", OptVal.num 40)] ∧
    resolveIterations ⟨["A", "B", "C"], [("A", "B")]⟩ [("iterations", OptVal.num 40)] = 40 :=
  ⟨rfl, (resolveIterations_default_is_forty (.obj .nil) (Or.inl rfl)).1,
    (resolveIterations_default_is_forty (.obj .nil) (Or.inl rfl)).2 _⟩

/-! ## Claim C3: the cut is recomputed over the original edge list -/

theorem computeCutSize_eq_countP (partA partB : List String)
    (edges : List (String × String)) :
    computeCutSize partA partB edges =
      edges.countP (fun e =>
        decide ((e.1 ∈ partA ∧ e.2 ∈ partB) ∨ (e.1 ∈ partB ∧ e.2 ∈ partA))) := by
  have key : ∀ (es : List (String × String)) (acc : Nat),
      es.foldl (fun cut e =>
        if (decide (e.1 ∈ partA) && decide (e.2 ∈ partB)) ||
            (decide (e.1 ∈ partB) && decide (e.2 ∈ partA)) then cut + 1 else cut) acc =
      acc + es.countP (fun e =>
        decide ((e.1 ∈ partA ∧ e.2 ∈ partB) ∨ (e.1 ∈ partB ∧ e.2 ∈ partA))) := by
    intro es
    induction es with
    | nil => intro acc; simp
    | cons e es ih =>
      intro acc
      rw [List.foldl_cons, List.countP_cons, ih]
      have hbd : ((decide (e.1 ∈ partA) && decide (e.2 ∈ partB)) ||
          (decide (e.1 ∈ partB) && decide (e.2 ∈ partA))) =
          decide ((e.1 ∈ partA ∧ e.2 ∈ partB) ∨ (e.1 ∈ partB ∧ e.2 ∈ partA)) := by
        by_cases h1 : e.1 ∈ partA <;> by_cases h2 : e.2 ∈ partB <;>
          by_cases h3 : e.1 ∈ partB <;> by_cases h4 : e.2 ∈ partA
        all_goals simp [h1, h2, h3, h4]
      rw [hbd]
      cases hd : decide ((e.1 ∈ partA ∧ e.2 ∈ partB) ∨ (e.1 ∈ partB ∧ e.2 ∈ partA))
      all_goals simp [hd]
      all_goals omega
  unfold computeCutSize
  simpa using key edges 0

/-- C3.  For every contraction run that ends with exactly two
representative groups, the reported cut equals the number of edges of the
original parsed edge list whose two endpoints lie in different final
partitions; the contracted working edge list (whose parallel edges were
deduplicated by the self-loop filter) plays no part in the count. -/
theorem singleRun_cut_counts_original_edges (rand : Nat → Nat) (input : KargerInput)
    (a b : String × List String)
    (h : contractLoop rand ((initComponents input.vertices).length + input.edges.length)
      0 (initComponents input.vertices) input.edges = .ok [a, b]) :
    singleRun rand input =
      .ok ⟨input.edges.countP (fun e =>
        decide ((e.1 ∈ a.2 ∧ e.2 ∈ b.2) ∨ (e.1 ∈ b.2 ∧ e.2 ∈ a.2))), a.2, b.2⟩ := by
  simp only [singleRun]
  rw [h, ← computeCutSize_eq_countP]

/-- Witness for C3 on the two-vertex graph `A - B`: the run ends with the
two singleton groups and reports the single original edge as the cut. -/
theorem singleRun_cut_counts_original_edges_witness :
    singleRun (fun _ => 0) ⟨["A", "B"], [("A", "B")]⟩ =
      .ok ⟨[("A", "B")].countP (fun e =>
        decide ((e.1 ∈ ["A"] ∧ e.2 ∈ ["B"]) ∨ (e.1 ∈ ["B"] ∧ e.2 ∈ ["A"]))),
        ["A"], ["B"]⟩ :=
  singleRun_cut_counts_original_edges (fun _ => 0) ⟨["A", "B"], [("A", "B")]⟩
    ("A", ["A"]) ("B", ["B"]) (by decide)

/-! ## Claims C5 and C10: the degenerate outcome and the loop invariant -/

/-- C5 at the failing input (see RESULTS): on the parsed input whose vertex
`x|y#1` collides with the merge label generated by contracting `x` and `y`
at step 1, the contraction run ends degenerately (one surviving group) and
returns cut 0 — but the first partition is only `[x, y]`: the original
vertex `x|y#1` is in neither partition, contradicting the claim that all
original vertices land in the first partition.  `Map.set` silently
overwrote the colliding component and dropped the vertex. -/
theorem singleRun_degenerate_loses_colliding_vertex :
    parseInput (.obj (.cons "vertices" (.arr (.cons (.str "x|y#1") .nil))
        (.cons "edges" (.arr (.cons (.arr (.cons (.str "x") (.cons (.str "y") .nil)))
          (.cons (.arr (.cons (.str "x") (.cons (.str "x|y#1") .nil))) .nil))) .nil))) =
      .ok ⟨["x|y#1", "x", "y"], [("x", "y"), ("x", "x|y#1")]⟩ ∧
    singleRun (fun _ => 0) ⟨["x|y#1", "x", "y"], [("x", "y"), ("x", "x|y#1")]⟩ =
      .ok ⟨0, ["x", "y"], []⟩ ∧
    ¬ ("x|y#1" ∈ (["x", "y"] : List String)) := by
  refine ⟨by decide, by decide, by decide⟩

/-- C10 at the failing input (see RESULTS): starting from the parsed input
whose vertex `a|b#1` collides with the merge label of `a` and `b` at step
1, the contraction loop terminates with a component map whose member sets
no longer cover the parsed vertex set — the vertex `a|b#1` is in no
component — refuting the claimed invariant that the member sets always
partition the vertex set. -/
theorem contraction_invariant_violated_by_label_collision :
    parseInput (.obj (.cons "vertices" (.arr (.cons (.str "a|b#1") .nil))
        (.cons "edges" (.arr (.cons (.arr (.cons (.str "a") (.cons (.str "b") .nil)))
          (.cons (.arr (.cons (.str "a") (.cons (.str "b") .nil))) .nil))) .nil)) : Json) =
      .ok ⟨["a|b#1", "a", "b"], [("a", "b"), ("a", "b")]⟩ ∧
    contractLoop (fun _ => 0) 5 0 (initComponents ["a|b#1", "a", "b"])
        [("a", "b"), ("a", "b")] = .ok [("a|b#1", ["a", "b"])] ∧
    "a|b#1" ∈ (["a|b#1", "a", "b"] : List String) ∧
    (([("a|b#1", ["a", "b"])] : List (String × List String)).map (fun p => p.2)).foldr
        (· ++ ·) [] = ["a", "b"] ∧
    ¬ ("a|b#1" ∈ (["a", "b"] : List String)) := by
  refine ⟨by decide, by decide, by decide, by decide, by decide⟩

/-! ## Claim C4: exact failure condition of the input parser -/

theorem parseEdges_error_iff : ∀ (i : Nat) (es : List Json),
    (∃ m, parseEdges i es = .error m) ↔ ∃ e ∈ es, destructureEdge e = none := by
  intro i es
  induction es generalizing i with
  | nil => simp [parseEdges]
  | cons e es ih =>
    rw [parseEdges]
    cases he : destructureEdge e with
    | some p =>
      cases hrest : parseEdges (i + 1) es with
      | ok r =>
        have h1 : ¬ ∃ e2 ∈ es, destructureEdge e2 = none := by
          intro hc
          rcases (ih (i + 1)).mpr hc with ⟨m, hm⟩
          rw [hrest] at hm
          exact Except.noConfusion hm
        simp [Except.map, hrest, he, h1]
      | error m =>
        have h1 : ∃ e2 ∈ es, destructureEdge e2 = none :=
          (ih (i + 1)).mp ⟨m, hrest⟩
        rcases h1 with ⟨e2, hmem, hnone⟩
        simp [Except.map, hrest, he]
        exact ⟨e2, hmem, hnone⟩
    | none =>
      simp [he]

theorem parseEdges_ok_eq : ∀ (i : Nat) (es : List Json) (r : List (String × String)),
    parseEdges i es = .ok r → r = es.filterMap destructureEdge := by
  intro i es
  induction es generalizing i with
  | nil => intro r h; simpa [parseEdges] using h.symm
  | cons e es ih =>
    intro r h
    rw [parseEdges] at h
    cases he : destructureEdge e with
    | some p =>
      rw [he] at h
      cases hrest : parseEdges (i + 1) es with
      | ok r2 =>
        rw [hrest] at h
        simp only [Except.map] at h
        cases h
        simp [List.filterMap_cons, he, ih (i + 1) r2 hrest]
      | error m =>
        rw [hrest] at h
        simp [Except.map] at h
    | none =>
      rw [he] at h
      simp at h

/-- C4.  The minimum-cut input parser fails — always with a `ClientError`
message — exactly when the `edges` property is absent, empty or not a
sequence, or some edge can be destructured neither as a two-element
sequence nor as an object supplying endpoints through `from ?? source ??
u` and `to ?? target ?? v`, or fewer than two distinct vertices remain
after stringifying the endpoints and merging them with the optional
`vertices` list; every other input parses.  Any such failure surfaces as a
`ClientError` (`HandlerError.client`), which the handler maps to an HTTP
400 response, never a 500. -/
theorem parseInput_fails_exactly_when_and_maps_to_400 (raw : Json) :
    ((∃ m, parseInput raw = .error m) ↔ specParseFailure raw = true) ∧
    (∀ m, (errorResponse (.client m)).statusCode = 400 ∧
      (errorResponse (.client m)).statusCode ≠ 500) ∧
    (∀ (rands : Nat → Nat → Nat) (now : String) (store : String → Option CacheRecord)
      (payload : Json) (m : String),
      payload.get "algorithmId" = some (.str "karger-min-cut") →
      parseInput (nullishGetD payload "input" (.obj .nil)) = .error m →
      handleTop (handleRunAlgorithm rands now store payload) =
        ⟨⟨400, .obj (.cons "message" (.str m) .nil)⟩, []⟩) := by
  refine ⟨?_, ?_, ?_⟩
  · cases raw with
    | null => simp [parseInput, specParseFailure, Json.get]
    | bool b => simp [parseInput, specParseFailure, Json.get]
    | num n => simp [parseInput, specParseFailure, Json.get]
    | str s => simp [parseInput, specParseFailure, Json.get]
    | arr xs => simp [parseInput, specParseFailure, Json.get]
    | obj fs =>
      cases hED : fs.get "edges" with
      | none =>
        simp [parseInput, specParseFailure, Json.get, hED]
      | some v =>
        cases v with
        | null => simp [parseInput, specParseFailure, Json.get, hED]
        | bool b => simp [parseInput, specParseFailure, Json.get, hED]
        | num n => simp [parseInput, specParseFailure, Json.get, hED]
        | str s => simp [parseInput, specParseFailure, Json.get, hED]
        | obj fs2 => simp [parseInput, specParseFailure, Json.get, hED]
        | arr es =>
          cases es with
          | nil => simp [parseInput, specParseFailure, Json.get, hED]
          | cons e0 etail =>
            cases hPE : parseEdges 0 (JsonList.cons e0 etail).toList with
            | error m =>
              have hbad : ∃ e ∈ (JsonList.cons e0 etail).toList,
                  destructureEdge e = none :=
                (parseEdges_error_iff 0 _).mp ⟨m, hPE⟩
              have hany : (JsonList.cons e0 etail).toList.any
                  (fun e => (destructureEdge e).isNone) = true := by
                rcases hbad with ⟨e, hmem, hnone⟩
                exact List.any_eq_true.mpr ⟨e, hmem, by simp [hnone]⟩
              constructor
              · intro _
                simp [specParseFailure, Json.get, hED, hany]
              · intro _
                exact ⟨m, by simp [parseInput, Json.get, hED, hPE]⟩
            | ok edges =>
              have hedges : edges = (JsonList.cons e0 etail).toList.filterMap
                  destructureEdge := parseEdges_ok_eq 0 _ edges hPE
              have hnobad : ((JsonList.cons e0 etail).toList.any
                  (fun e => (destructureEdge e).isNone)) = false := by
                rw [Bool.eq_false_iff]
                intro hany
                rcases List.any_eq_true.mp hany with ⟨e, hmem, hnone⟩
                have hde : destructureEdge e = none := by
                  cases hde2 : destructureEdge e
                  · rfl
                  · rw [hde2] at hnone; simp at hnone
                rcases (parseEdges_error_iff 0 _).mpr ⟨e, hmem, hde⟩ with ⟨m2, hm2⟩
                rw [hPE] at hm2
                exact Except.noConfusion hm2
              simp only [parseInput, specParseFailure, Json.get, hED, hPE, hnobad,
                Bool.false_eq_true, if_false, ← hedges]
              by_cases hlen : (dedupFirst (explicitVertices (Json.obj fs) ++
                  endpointsOf edges)).length < 2
              · simp [hlen]
              · simp [hlen]
  · intro m
    refine ⟨rfl, ?_⟩
    show (400 : Nat) ≠ 500
    omega
  · intro rands now store payload m hid hin
    rw [handleRunAlgorithm, hid]
    simp [hin, handleTop, errorResponse]

/-- Witness for C4 at concrete inputs: the empty object (no `edges`) fails
and satisfies the failure condition; a well-formed one-edge graph violates
it and parses; and a `/run` payload with a missing input yields the 400
response through the handler. -/
theorem parseInput_fails_exactly_when_witness :
    specParseFailure (.obj .nil) = true ∧
    (∃ m, parseInput (.obj .nil) = .error m) ∧
    specParseFailure (.obj (.cons "edges" (.arr (.cons (.arr (.cons (.str "A")
      (.cons (.str "B") .nil))) .nil)) .nil)) = false ∧
    handleTop (handleRunAlgorithm (fun _ _ => 0) "t" (fun _ => none)
        (.obj (.cons "algorithmId" (.str "karger-min-cut") .nil))) =
      ⟨⟨400, .obj (.cons "message"
        (.str "Input must include a non-empty \"edges\" array.") .nil)⟩, []⟩ := by
  refine ⟨by decide, ?_, by decide, ?_⟩
  · exact (parseInput_fails_exactly_when_and_maps_to_400 (.obj .nil)).1.mpr (by decide)
  · exact (parseInput_fails_exactly_when_and_maps_to_400 (.obj .nil)).2.2
      (fun _ _ => 0) "t" (fun _ => none)
      (.obj (.cons "algorithmId" (.str "karger-min-cut") .nil)) _ rfl (by decide)

/-! ## Claim C6: the cache-hit path -/

theorem lookupPair_append {α : Type} (k : String) (l₁ l₂ : List (String × α)) :
    lookupPair k (l₁ ++ l₂) =
      match lookupPair k l₁ with
      | some v => some v
      | none => lookupPair k l₂ := by
  induction l₁ with
  | nil => simp [lookupPair]
  | cons p l₁ ih =>
    by_cases h : p.1 = k
    · simp [lookupPair, h]
    · simp [lookupPair, h, ih]

theorem lookupPair_none_of_any_eq_false {α : Type} (k : String) (l : List (String × α))
    (h : l.any (fun p => decide (p.1 = k)) = false) : lookupPair k l = none := by
  induction l with
  | nil => rfl
  | cons p l ih =>
    simp only [List.any_cons, Bool.or_eq_false_iff] at h
    have hp : ¬ p.1 = k := by simpa using h.1
    simp [lookupPair, hp, ih h.2]

theorem lookupPair_map_upsert_present (key : String) (v : Json) :
    ∀ fs : List (String × Json), fs.any (fun p => decide (p.1 = key)) = true →
      lookupPair key (fs.map (fun p => if p.1 = key then (key, v) else p)) = some v := by
  intro fs
  induction fs with
  | nil => intro hany; simp at hany
  | cons p fs ih =>
    intro hany
    rcases p with ⟨k₁, v₁⟩
    rw [List.map_cons]
    by_cases hp : k₁ = key
    · subst hp
      rw [show (if (k₁, v₁).1 = k₁ then (k₁, v) else (k₁, v₁)) = (k₁, v) from
        if_pos rfl]
      simp [lookupPair]
    · rw [show (if (k₁, v₁).1 = key then (key, v) else (k₁, v₁)) = (k₁, v₁) from
        if_neg hp]
      simp only [List.any_cons, Bool.or_eq_true] at hany
      have htail : fs.any (fun p => decide (p.1 = key)) = true := by
        rcases hany with h | h
        · exact absurd (of_decide_eq_true h) hp
        · exact h
      simp [lookupPair, hp, ih htail]

theorem lookupPair_map_upsert_other (key : String) (v : Json) (k : String)
    (h : ¬ k = key) :
    ∀ fs : List (String × Json),
      lookupPair k (fs.map (fun p => if p.1 = key then (key, v) else p)) =
        lookupPair k fs := by
  intro fs
  have hkk : ¬ key = k := fun hh => h hh.symm
  induction fs with
  | nil => rfl
  | cons p fs ih =>
    rcases p with ⟨k₁, v₁⟩
    rw [List.map_cons]
    by_cases hp : k₁ = key
    · subst hp
      rw [show (if (k₁, v₁).1 = k₁ then (k₁, v) else (k₁, v₁)) = (k₁, v) from
        if_pos rfl]
      simp [lookupPair, hkk, ih]
    · rw [show (if (k₁, v₁).1 = key then (key, v) else (k₁, v₁)) = (k₁, v₁) from
        if_neg hp]
      by_cases hpk : k₁ = k
      · simp [lookupPair, hpk]
      · simp [lookupPair, hpk, ih]

theorem lookupPair_upsert_same (key : String) (v : Json) (fs : List (String × Json)) :
    lookupPair key (upsertField key v fs) = some v := by
  unfold upsertField
  by_cases hany : fs.any (fun p => decide (p.1 = key)) = true
  · rw [if_pos hany]
    exact lookupPair_map_upsert_present key v fs hany
  · rw [if_neg hany]
    rw [lookupPair_append]
    rw [lookupPair_none_of_any_eq_false key fs (Bool.eq_false_iff.mpr hany)]
    simp [lookupPair]

theorem lookupPair_upsert_other (key : String) (v : Json) (fs : List (String × Json))
    (k : String) (h : k ≠ key) :
    lookupPair k (upsertField key v fs) = lookupPair k fs := by
  have hkk : ¬ key = k := fun hh => h hh.symm
  unfold upsertField
  by_cases hany : fs.any (fun p => decide (p.1 = key)) = true
  · rw [if_pos hany]
    exact lookupPair_map_upsert_other key v k h fs
  · rw [if_neg hany]
    rw [lookupPair_append]
    cases hfs : lookupPair k fs with
    | some w => simp
    | none => simp [lookupPair, hkk]

/-- C6.  On a cache hit the engine answers 200 with `cached = true` and the
stored `ExecutionResult` whose diagnostics' `optionsUsed` entry is
overwritten with the currently validated options; the stored output, the
summary and every other diagnostics entry are returned unchanged, and the
hit path performs no Result Store write. -/
theorem cacheHit_returns_augmented_result_without_write
    (rands : Nat → Nat → Nat) (now : String) (store : String → Option CacheRecord)
    (payload : Json) (input : KargerInput) (opts : List (String × OptVal))
    (stored : CacheRecord)
    (hid : payload.get "algorithmId" = some (.str "karger-min-cut"))
    (hin : parseInput (nullishGetD payload "input" (.obj .nil)) = .ok input)
    (hop : parseOptions kargerOptionDefs (nullishGetD payload "options" (.obj .nil)) =
      .ok opts)
    (hstore : store (createCacheKey "karger-min-cut" (kargerInputJson input)
      (optionsJson opts)) = some stored) :
    handleRunAlgorithm rands now store payload =
      .ok ⟨⟨200, runResponseBody "karger-min-cut" true
        (augmentResultWithOptions stored.result opts)⟩, []⟩ ∧
    (augmentResultWithOptions stored.result opts).output = stored.result.output ∧
    (augmentResultWithOptions stored.result opts).summary = stored.result.summary ∧
    lookupPair "optionsUsed"
        ((augmentResultWithOptions stored.result opts).diagnostics.getD []) =
      some (optionsJson opts) ∧
    (∀ k, k ≠ "optionsUsed" →
      lookupPair k ((augmentResultWithOptions stored.result opts).diagnostics.getD []) =
        lookupPair k (stored.result.diagnostics.getD [])) := by
  refine ⟨?_, rfl, rfl, ?_, ?_⟩
  · rw [handleRunAlgorithm, hid]
    simp [hin, hop, hstore]
  · exact lookupPair_upsert_same _ _ _
  · intro k hk
    exact lookupPair_upsert_other _ _ _ _ hk

/-- Witness for C6: a concrete payload, store and stored record exercising
the cache-hit path. -/
theorem cacheHit_witness :
    handleRunAlgorithm (fun _ _ => 0) "2024-01-01T00:00:00Z"
        (fun _ => some ⟨"k0", "karger-min-cut", "2023-12-31T00:00:00Z",
          ⟨.null, "stored summary", some [("bestIteration", .num 1)]⟩⟩)
        (.obj (.cons "algorithmId" (.str "karger-min-cut")
          (.cons "input" (.obj (.cons "edges" (.arr (.cons (.arr (.cons (.str "A")
            (.cons (.str "B") .nil))) .nil)) .nil)) .nil))) =
      .ok ⟨⟨200, runResponseBody "karger-min-cut" true
        (augmentResultWithOptions
          ⟨.null, "stored summary", some [("bestIteration", .num 1)]⟩
          [("iterations", OptVal.num 40)])⟩, []⟩ :=
  (cacheHit_returns_augmented_result_without_write (fun _ _ => 0) "2024-01-01T00:00:00Z"
    (fun _ => some ⟨"k0", "karger-min-cut", "2023-12-31T00:00:00Z",
      ⟨.null, "stored summary", some [("bestIteration", .num 1)]⟩⟩)
    (.obj (.cons "algorithmId" (.str "karger-min-cut")
      (.cons "input" (.obj (.cons "edges" (.arr (.cons (.arr (.cons (.str "A")
        (.cons (.str "B") .nil))) .nil)) .nil)) .nil)))
    ⟨["A", "B"], [("A", "B")]⟩ [("iterations", OptVal.num 40)]
    ⟨"k0", "karger-min-cut", "2023-12-31T00:00:00Z",
      ⟨.null, "stored summary", some [("bestIteration", .num 1)]⟩⟩
    rfl (by decide) (by decide) rfl).1

/-! ## Claim C8: the 500 mapping -/

/-- Counterexample to C8 as stated: an internal failure whose `Error`
message is `connection reset by peer` is answered with a 500 whose body
repeats that very message — the response exposes the internal error's own
detail text instead of a generic message. -/
theorem internal_error_detail_exposed :
    errorResponse (.internalErr "connection reset by peer") =
      ⟨500, .obj (.cons "message" (.str "connection reset by peer") .nil)⟩ ∧
    "connection reset by peer" ≠ "Internal server error" ∧
    (handleTop (.error (.internalErr "connection reset by peer"))).response.statusCode
      = 500 := by
  refine ⟨rfl, by decide, rfl⟩

/-- C8 (amended).  Every failure not classified as a client error yields an
HTTP 500 response with body `\x7bmessage\x7d`, where the message is the
thrown error's own message whenever the thrown value is an `Error` —
so internal detail text is exposed — and the generic
`Internal server error` only when a non-`Error` value was thrown; no store
write accompanies the error response. -/
theorem internal_error_maps_to_500_with_own_message (m : String) :
    errorResponse (.internalErr m) = ⟨500, .obj (.cons "message" (.str m) .nil)⟩ ∧
    errorResponse .internalNonError =
      ⟨500, .obj (.cons "message" (.str "Internal server error") .nil)⟩ ∧
    handleTop (.error (.internalErr m)) =
      ⟨⟨500, .obj (.cons "message" (.str m) .nil)⟩, []⟩ :=
  ⟨rfl, rfl, rfl⟩

/-! ## Claim C9: path normalization and route matching -/

theorem dropWhile_slash_replicate (k : Nat) (l : List Char) :
    List.dropWhile (fun c => decide (c = '/')) (List.replicate k '/' ++ l) =
      List.dropWhile (fun c => decide (c = '/')) l := by
  induction k with
  | zero => simp
  | succ k ih => simp [List.replicate_succ, List.dropWhile_cons, ih]

theorem stripTrailingSlashes_append_slashes (p : String) (k : Nat) :
    stripTrailingSlashes (p ++ (⟨List.replicate k '/'⟩ : String)) =
      stripTrailingSlashes p := by
  unfold stripTrailingSlashes
  have hdata : (p ++ (⟨List.replicate k '/'⟩ : String)).data =
      p.data ++ List.replicate k '/' := rfl
  rw [hdata, List.reverse_append, List.reverse_replicate]
  exact congrArg (fun l => String.mk l.reverse) (dropWhile_slash_replicate k p.data.reverse)

theorem normalisePath_append_slashes (p : String) (k : Nat) :
    normalisePath (some (p ++ (⟨List.replicate k '/'⟩ : String))) =
      normalisePath (some p) := by
  simp only [normalisePath]
  by_cases hp : p = ""
  · subst hp
    cases k with
    | zero => rfl
    | succ k =>
      have hne : ("" ++ (⟨List.replicate (k + 1) '/'⟩ : String)) ≠ "" := by
        intro h
        have := congrArg String.data h
        simp [List.replicate_succ] at this
      rw [if_neg hne, if_pos rfl]
      have hstrip : stripTrailingSlashes ("" ++ (⟨List.replicate (k + 1) '/'⟩ : String)) =
          stripTrailingSlashes "" :=
        stripTrailingSlashes_append_slashes "" (k + 1)
      rw [hstrip]
      rfl
  · have hne : (p ++ (⟨List.replicate k '/'⟩ : String)) ≠ "" := by
      intro h
      have h2 := congrArg String.data h
      have h3 : p.data ++ List.replicate k '/' = [] := h2
      have h4 : p.data = [] := by
        rcases List.append_eq_nil.mp h3 with ⟨h4, _⟩
        exact h4
      exact hp (String.ext h4)
    rw [if_neg hne, if_neg hp, stripTrailingSlashes_append_slashes]

/-- C9 (amended).  Route matching is performed on the request path with
every run of trailing slashes stripped (and an absent or emptied path
normalized to `/`): appending any number of trailing slashes to a path
never changes the matched route.  The claim's restriction to a single
trailing slash does not hold — see the counterexample theorem. -/
theorem dispatch_append_slashes (method : String) (p : String) (k : Nat) :
    dispatch method (some (p ++ (⟨List.replicate k '/'⟩ : String))) =
      dispatch method (some p) := by
  unfold dispatch
  rw [normalisePath_append_slashes]

/-- Counterexample to C9 as stated: a path with two (or three) extra
trailing slashes still matches the same route — `/run//` normalizes to
`/run` and dispatches to the run route, and `/health///` dispatches to the
health route, although the claim says only a single trailing slash is
stripped and paths with additional slashes do not match. -/
theorem dispatch_multiple_trailing_slashes_match :
    normalisePath (some "/run//") = "/run" ∧
    dispatch "POST" (some "/run//") = .run ∧
    dispatch "POST" (some "/run/") = .run ∧
    dispatch "GET" (some "/health///") = .health := by
  refine ⟨by decide, by decide, by decide, by decide⟩

/-! ## Fuel adequacy of the contraction loop model -/

theorem mapDelete_length_lt (k : String) (m : List (String × List String))
    (h : mapLookup k m = some v) : (mapDelete k m).length < m.length := by
  unfold mapDelete
  rw [List.length_filter_lt_length_iff_exists]
  unfold mapLookup at h
  cases hf : m.find? (fun p => decide (p.1 = k)) with
  | none => rw [hf] at h; simp at h
  | some q =>
    have hmem : q ∈ m := List.mem_of_find?_eq_some hf
    have hq := List.find?_some hf
    have hpk : q.1 = k := of_decide_eq_true hq
    exact ⟨q, hmem, by simp [hpk]⟩

theorem mapDelete_lookup_other (k k2 : String) (m : List (String × List String))
    (hne : k2 ≠ k) (h : mapLookup k2 m = some v) :
    mapLookup k2 (mapDelete k m) = some v := by
  unfold mapLookup at h
  unfold mapLookup mapDelete
  induction m with
  | nil => simp at h
  | cons p m ih =>
    by_cases hp : p.1 = k2
    · have hpk : p.1 ≠ k := by rw [hp]; exact hne
      rw [List.find?_cons_of_pos _ (by simp [hp])] at h
      simp only [List.filter_cons, decide_eq_true_eq] at *
      rw [if_pos (by simpa using hpk)]
      rw [List.find?_cons_of_pos _ (by simp [hp])]
      exact h
    · rw [List.find?_cons_of_neg _ (by simp [hp])] at h
      by_cases hpk : p.1 = k
      · rw [List.filter_cons_of_neg (by simp [hpk])]
        exact ih h
      · rw [List.filter_cons_of_pos (by simp [hpk])]
        rw [List.find?_cons_of_neg _ (by simp [hp])]
        exact ih h

theorem mapSet_length_le (k : String) (v : List String)
    (m : List (String × List String)) : (mapSet k v m).length ≤ m.length + 1 := by
  unfold mapSet
  by_cases hany : m.any (fun p => decide (p.1 = k)) = true
  · rw [if_pos hany]
    simp
  · rw [if_neg hany]
    simp

theorem mergeComponents_length_lt (fromKey toKey : String)
    (comps : List (String × List String)) (step : Nat) (label : String)
    (merged2 : List (String × List String)) (hne : fromKey ≠ toKey)
    (h : mergeComponents fromKey toKey comps step = some (label, merged2)) :
    merged2.length < comps.length := by
  unfold mergeComponents at h
  cases hf : mapLookup fromKey comps with
  | none => rw [hf] at h; simp at h
  | some fromSet =>
    cases ht : mapLookup toKey comps with
    | none => rw [hf, ht] at h; simp at h
    | some toSet =>
      rw [hf, ht] at h
      simp only [Option.some.injEq, Prod.mk.injEq] at h
      have hm2 : merged2 = mapSet (mkLabel (setUnion fromSet toSet) step)
          (setUnion fromSet toSet) (mapDelete toKey (mapDelete fromKey comps)) := h.2.symm
      have h1 : (mapDelete fromKey comps).length < comps.length :=
        mapDelete_length_lt fromKey comps hf
      have h2 : mapLookup toKey (mapDelete fromKey comps) = some toSet :=
        mapDelete_lookup_other fromKey toKey comps (fun hh => hne hh.symm) ht
      have h3 : (mapDelete toKey (mapDelete fromKey comps)).length <
          (mapDelete fromKey comps).length :=
        mapDelete_length_lt toKey (mapDelete fromKey comps) h2
      have h4 := mapSet_length_le (mkLabel (setUnion fromSet toSet) step)
        (setUnion fromSet toSet) (mapDelete toKey (mapDelete fromKey comps))
      rw [hm2]
      omega

/-- Fuel adequacy: any two fuel values of at least
`components.length + edges.length` make `contractLoop` compute the same
result, because every loop iteration either deletes one edge or merges two
components.  The fuel that `singleRun` supplies therefore models the
unbounded `while` loop of the source exactly. -/
theorem contractLoop_fuel_sufficient (rand : Nat → Nat) :
    ∀ (f₁ f₂ k : Nat) (components : List (String × List String))
      (edges : List (String × String)),
      components.length + edges.length ≤ f₁ →
      components.length + edges.length ≤ f₂ →
      contractLoop rand f₁ k components edges = contractLoop rand f₂ k components edges := by
  intro f₁
  induction f₁ with
  | zero =>
    intro f₂ k comps edges h₁ h₂
    have hc : comps = [] := List.length_eq_zero.mp (by omega)
    subst hc
    cases f₂ with
    | zero => rfl
    | succ f₂ => simp [contractLoop]
  | succ f₁ ih =>
    intro f₂ k comps edges h₁ h₂
    cases f₂ with
    | zero =>
      have hc : comps = [] := List.length_eq_zero.mp (by omega)
      subst hc
      simp [contractLoop]
    | succ f₂ =>
      by_cases hcond : 2 < comps.length ∧ edges ≠ []
      · have hlenpos : 0 < edges.length := List.length_pos.mpr hcond.2
        have hidx : rand k % edges.length < edges.length := Nat.mod_lt _ hlenpos
        rw [contractLoop, contractLoop, if_pos hcond, if_pos hcond]
        cases hf1 : findRepresentative
            (edges.getD (rand k % edges.length) ("", "")).1 comps with
        | none => rfl
        | some fromKey =>
          cases hf2 : findRepresentative
              (edges.getD (rand k % edges.length) ("", "")).2 comps with
          | none => rfl
          | some toKey =>
            by_cases heq : fromKey = toKey
            · have hb : comps.length + (edges.eraseIdx (rand k % edges.length)).length =
                  comps.length + edges.length - 1 := by
                rw [List.length_eraseIdx, if_pos hidx]
                omega
              simp only [heq, if_pos rfl]
              exact ih f₂ (k + 1) comps _ (by omega) (by omega)
            · simp only [if_neg heq]
              cases hm : mergeComponents fromKey toKey comps (k + 1) with
              | none => rfl
              | some pair =>
                rcases pair with ⟨label, merged⟩
                have hml : merged.length < comps.length :=
                  mergeComponents_length_lt fromKey toKey comps (k + 1) label merged
                    heq hm
                have hel : ((edges.map (relabelEdge fromKey toKey label)).filter
                    (fun e2 => decide (e2.1 ≠ e2.2))).length ≤ edges.length := by
                  calc ((edges.map (relabelEdge fromKey toKey label)).filter
                      (fun e2 => decide (e2.1 ≠ e2.2))).length
                      ≤ (edges.map (relabelEdge fromKey toKey label)).length :=
                        List.length_filter_le _ _
                    _ = edges.length := List.length_map _ _
                exact ih f₂ (k + 1) merged _ (by omega) (by omega)
      · rw [contractLoop, contractLoop, if_neg hcond, if_neg hcond]
